import Mathlib

/-!
Shallow embedding of the card-name resolution and deck-assembly engine of
MTGScan (`src/mtgscan/text.py`, class `MagicRecognition`), together with
proofs of the specification's testable properties.

Conventions of the embedding:
* Python strings are Lean `String`s (a `String` in this toolchain wraps a
  `List Char`, matching Python's code-point semantics for `len`, slicing
  and iteration).
* The Levenshtein edit distance used by symspellpy
  (`DistanceAlgorithm.LEVENSHTEIN`) is Mathlib's `levenshtein` with the
  default unit cost.
* Python `int(r * n)` on the nonnegative ratio parameters is modelled as
  the exact rational floor: a ratio is carried as a numerator/denominator
  pair of naturals and the floor is natural division `num * n / den`
  (float truncation is modelled as exact rational arithmetic).
* Box coordinates are modelled as integer pairs; only comparisons and
  squared distances of coordinates are used by the code.
* Fallible code (the out-of-bounds list access in `assign_stacked_one`)
  is modelled with `Option`, `none` standing for the raised exception.
-/

namespace MTGScan

/-- Levenshtein edit distance on character lists, with unit insert/delete
and substitution cost (0 on equal characters): the distance computed by
symspellpy's `DistanceAlgorithm.LEVENSHTEIN`, used both by
`EditDistance.compare` and inside `SymSpell.lookup`. -/
def lev (s t : List Char) : ℕ :=
  levenshtein Levenshtein.defaultCost s t

/-- Characters kept by `MagicRecognition.preprocess`'s regular expression
`[^a-zA-Z',. ]`: letters, apostrophe, comma, period and space. -/
def allowedChar (c : Char) : Bool :=
  (Char.ofNat 97 ≤ c && c ≤ Char.ofNat 122) ||
    (Char.ofNat 65 ≤ c && c ≤ Char.ofNat 90) ||
    c = Char.ofNat 39 || c = Char.ofNat 44 || c = Char.ofNat 46 || c = Char.ofNat 32

/-- Python `str.rstrip(' ')`: drop trailing spaces. -/
def rstripSpace (l : List Char) : List Char :=
  (l.reverse.dropWhile (fun c => c = Char.ofNat 32)).reverse

/-- `MagicRecognition.preprocess` (text.py lines 64–66):
`re.sub("[^a-zA-Z',. ]", '', text).rstrip(' ')`. -/
def preprocess (s : String) : String :=
  ⟨rstripSpace (s.data.filter allowedChar)⟩

/-- Python `text.find("..")` (text.py line 145): index of the first
occurrence of two consecutive periods, `none` for Python's `-1`. -/
def findDots : List Char → Option ℕ
  | c0 :: c1 :: rest =>
    if c0 = Char.ofNat 46 ∧ c1 = Char.ofNat 46 then some 0
    else (findDots (c1 :: rest)).map (· + 1)
  | _ => none

/-- The period stripping of the fuzzy path (text.py line 160):
`text.replace('.', '').rstrip(' ')`. -/
def stripDots (l : List Char) : List Char :=
  rstripSpace (l.filter (fun c => ¬ c = Char.ofNat 46))

/-- Python `int(r * n)` for a nonnegative ratio parameter
(`max_ratio_diff`, `max_ratio_diff_keyword`) given as the exact rational
`num / den`: the floor `⌊num * n / den⌋`, i.e. natural division. -/
def ratioFloor (num den n : ℕ) : ℕ :=
  num * n / den

/-- symspellpy `EditDistance.compare(a, b, mx)`: the Levenshtein distance
when it is at most `mx`, and `-1` otherwise. -/
def compare (a b : List Char) (mx : ℕ) : Int :=
  if lev a b ≤ mx then (lev a b : Int) else -1

/-- The truncated-name loop of `MagicRecognition.search`
(text.py lines 147–153): scan the card index in order, keeping the
running best `card` and bound `dist`; an entry is accepted when
`compare(text[:i], c[:i], dist)` is not `-1` and strictly improves
`dist`. -/
def truncLoop (pre : List Char) (i : ℕ) :
    List String → ℕ → Option String → Option String × ℕ
  | [], dist, card => (card, dist)
  | c :: cs, dist, card =>
    let d := compare pre (c.data.take i) dist
    if d ≠ -1 ∧ d < (dist : Int) then
      truncLoop pre i cs (lev pre (c.data.take i)) (some c)
    else
      truncLoop pre i cs dist card

/-- Semantics of symspellpy `SymSpell.lookup(text, Verbosity.CLOSEST,
max_edit_distance)` over a dictionary given as a list of terms: the
suggestion of minimal Levenshtein distance among terms within
`maxEd`, paired with its distance, or `none` when no term qualifies
(so `none` models Python's empty suggestion list).  Among terms of
equal minimal distance the first in dictionary order is kept; no claim
below depends on the tie order. -/
def lookupLoop (text : List Char) (maxEd : ℕ) :
    List String → Option (String × ℕ) → Option (String × ℕ)
  | [], acc => acc
  | c :: cs, acc =>
    match acc with
    | none =>
      lookupLoop text maxEd cs
        (if lev text c.data ≤ maxEd then some (c, lev text c.data) else none)
    | some (b, bd) =>
      lookupLoop text maxEd cs
        (if lev text c.data < bd then some (c, lev text c.data) else some (b, bd))

/-- symspellpy `SymSpell.lookup` with `Verbosity.CLOSEST`: see
`lookupLoop`. -/
def lookupClosest (dict : List String) (text : List Char) (maxEd : ℕ) :
    Option (String × ℕ) :=
  lookupLoop text maxEd dict none

/-- `MagicRecognition.search` (text.py lines 137–172).  `cards` is
`self.all_cards` in its dictionary (insertion) order; the ratio
`self.max_ratio_diff` (default 0.3 = 3/10) is given as `rNum / rDen`. -/
def search (cards : List String) (rNum rDen : ℕ) (text : String) : Option String :=
  if text.length < 3 then none
  else if 30 < text.length then none
  else if text ∈ cards then some text
  else
    match findDots text.data with
    | some i =>
      (truncLoop (text.data.take i) i cards (ratioFloor rNum rDen i) none).1
    | none =>
      let t : List Char := stripDots text.data
      match lookupClosest cards t (min 6 (ratioFloor rNum rDen t.length)) with
      | none => none
      | some (c, _) => if t.length < c.length + 7 then some c else none

/-- A detected text fragment: bounding-box representative point, raw
text, and stack count (`mtgscan.box_text.BoxText`; the class itself is
not under src/, its fields and the default count `n = 1` are modelled
from the spec's data model, which is how text.py uses it). -/
structure BoxText where
  box : Int × Int
  text : String
  n : ℕ
deriving DecidableEq

/-- `MagicRecognition.box_texts_to_cards`, one fragment
(text.py lines 74–82): reject the fragment when the keyword lookup with
`max_edit_distance = min(3, int(max_ratio_diff_keyword * len(text)))`
returns a suggestion; otherwise resolve `preprocess(text)` against the
card index, emitting the resolved box (`BoxTextList.add(box, card)`,
count defaulting to 1) on success.  Note the keyword lookup runs on the
raw fragment text; `preprocess` is applied only to the card search. -/
def processBox (cards keywords : List String) (rNum rDen kNum kDen : ℕ)
    (bt : BoxText) : Option BoxText :=
  if (lookupClosest keywords bt.text.data
        (min 3 (ratioFloor kNum kDen bt.text.length))).isSome then
    none
  else
    match search cards rNum rDen (preprocess bt.text) with
    | some card => some ⟨bt.box, card, 1⟩
    | none => none

/-- `MagicRecognition.box_texts_to_cards` (text.py lines 72–83). -/
def boxTextsToCards (cards keywords : List String) (rNum rDen kNum kDen : ℕ)
    (bts : List BoxText) : List BoxText :=
  bts.filterMap (processBox cards keywords rNum rDen kNum kDen)

/-- Squared Euclidean distance `dist` of `assign_stacked`
(text.py lines 95–96). -/
def dist2 (p q : Int × Int) : Int :=
  (p.1 - q.1) ^ 2 + (p.2 - q.2) ^ 2

/-- Comparator `comp_md` (text.py lines 98–99), with the captured label
box `box` as first argument: unconstrained nearest. -/
def compMd (box box1 box2 : Int × Int) : Bool :=
  dist2 box box1 < dist2 box box2

/-- Comparator `comp_sb` (text.py lines 101–104): direction-gated
nearest — `box1` is ruled out when either of its coordinates exceeds the
label's. -/
def compSb (box box1 box2 : Int × Int) : Bool :=
  if box.1 < box1.1 ∨ box.2 < box1.2 then false
  else dist2 box box1 < dist2 box box2

/-- Placeholder element for out-of-range `List.getD` reads; the code
only indexes in range except for the empty-list crash modelled in
`assignStackedOne`. -/
def dummyBox : BoxText := ⟨(0, 0), "", 0⟩

/-- The argmin loop of `assign_stacked_one` (text.py lines 88–91):
`i_min = 0; for i in range(len(box_cards)): if comp(box_cards[i].box,
box_cards[i_min].box): i_min = i`. -/
def iMinLoop (comp : Int × Int → Int × Int → Bool) (boxCards : List BoxText) : ℕ :=
  (List.range boxCards.length).foldl
    (fun im i =>
      if comp (boxCards.getD i dummyBox).box (boxCards.getD im dummyBox).box then i
      else im)
    0

/-- `assign_stacked_one` (text.py lines 87–93): overwrite the count of
the comparator-selected box with `m`.  The final write
`box_cards[i_min].n = m` raises `IndexError` when `i_min` is out of
range (in particular on an empty `box_cards`); the exception is
modelled as `none`. -/
def assignStackedOne (boxCards : List BoxText) (m : ℕ)
    (comp : Int × Int → Int × Int → Bool) : Option (List BoxText) :=
  if iMinLoop comp boxCards < boxCards.length then
    some (boxCards.set (iMinLoop comp boxCards)
      { boxCards.getD (iMinLoop comp boxCards) dummyBox with n := m })
  else none

/-- The multiplier glyphs `'×xX'` of `assign_stacked`
(text.py line 110). -/
def isGlyph (c : Char) : Bool :=
  c = Char.ofNat 215 || c = Char.ofNat 120 || c = Char.ofNat 88

/-- Python `int(c)` on a single decimal digit character.  (The code
guards with `str.isnumeric`, which accepts further Unicode numerics on
which `int` would itself raise; the count labels treated by the claims
are ASCII digits, modelled by `Char.isDigit`.) -/
def digitVal (c : Char) : ℕ :=
  c.toNat - 48

/-- One iteration of the `assign_stacked` outer loop
(text.py lines 107–111) on a fragment with box `box` and text `t`: for
a two-character text, position `i = 0` (glyph before digit) uses
`comp_md`, then position `i = 1` (digit before glyph) uses `comp_sb`;
each firing position overwrites a count via `assign_stacked_one`. -/
def labelStep (boxCards : List BoxText) (box : Int × Int) (t : String) :
    Option (List BoxText) :=
  match t.data with
  | [c0, c1] =>
    match (if isGlyph c0 && c1.isDigit then
             assignStackedOne boxCards (digitVal c1) (compMd box)
           else some boxCards) with
    | none => none
    | some bc =>
      if isGlyph c1 && c0.isDigit then
        assignStackedOne bc (digitVal c0) (compSb box)
      else some bc
  | _ => some boxCards

/-- `MagicRecognition.assign_stacked` (text.py lines 85–111): walk the
original (unfiltered) fragments, applying each detected count label to
the resolved list.  `none` propagates the `IndexError` of
`assign_stacked_one`. -/
def assignStacked (boxTexts boxCards : List BoxText) : Option (List BoxText) :=
  match boxTexts with
  | [] => some boxCards
  | bt :: rest =>
    match labelStep boxCards bt.box bt.text with
    | none => none
    | some bc => assignStacked rest bc

/-- A deck pile (`mtgscan.deck.Pile`; the class is not under src/,
modelled from the spec: a mapping from card name to positive quantity).
Embedded as an association list with unique keys, in dict insertion
order. -/
def pileAdd : List (String × ℕ) → String → ℕ → List (String × ℕ)
  | [], card, p => if 0 < p then [(card, p)] else []
  | (c, q) :: rest, card, p =>
    if c = card then (c, q + p) :: rest else (c, q) :: pileAdd rest card p

/-- Total number of copies held in a pile. -/
def pileSum (p : List (String × ℕ)) : ℕ :=
  (p.map (·.2)).sum

/-- `mtgscan.deck.Deck` (not under src/, modelled from the spec):
maindeck and sideboard piles. -/
structure Deck where
  maindeck : List (String × ℕ)
  sideboard : List (String × ℕ)
deriving DecidableEq

/-- The partition loop of `box_texts_to_stacked_cards`
(text.py lines 122–131): walk the resolved counted cards in order,
sending `n_added_main = max(min(n, last_main_card - n_added), 0)`
copies to the maindeck and the rest to the sideboard (`add_cards`
inserts only positive quantities).  Subtraction is on ℕ, which agrees
with the Python integers here: `min(n, last - added)` is negative in
Python exactly when clamping to 0 occurs. -/
def assembleLoop :
    List BoxText → ℕ → ℕ → List (String × ℕ) → List (String × ℕ) →
      List (String × ℕ) × List (String × ℕ)
  | [], _, _, md, sb => (md, sb)
  | bt :: rest, lastMain, nAdded, md, sb =>
    let nMain := max (min bt.n (lastMain - nAdded)) 0
    assembleLoop rest lastMain (nAdded + bt.n)
      (pileAdd md bt.text nMain) (pileAdd sb bt.text (bt.n - nMain))

/-- The deck-assembly tail of `box_texts_to_stacked_cards`
(text.py lines 118–135): `last_main_card = max(60, n_cards - 15)`. -/
def assemble (boxCards : List BoxText) : Deck :=
  let nCards := (boxCards.map (·.n)).sum
  let lastMain := max 60 (nCards - 15)
  let r := assembleLoop boxCards lastMain 0 [] []
  ⟨r.1, r.2⟩

/-- Modelled from the spec: `BoxTextList.sort` (box_text.py is not
under src/) — the stable total order on boxes, top-to-bottom then
left-to-right.  Embedded as a stable insertion sort on the
representative point, y-coordinate first. -/
def boxLe (b1 b2 : BoxText) : Bool :=
  b1.box.2 < b2.box.2 || (b1.box.2 = b2.box.2 && b1.box.1 ≤ b2.box.1)

/-- Insert a box before the first strictly-greater element (stable). -/
def insertBox (b : BoxText) : List BoxText → List BoxText
  | [] => [b]
  | x :: xs => if boxLe b x then b :: x :: xs else x :: insertBox b xs

/-- Stable insertion sort implementing `box_texts.sort()`
(text.py line 114). -/
def sortBoxes (l : List BoxText) : List BoxText :=
  l.foldr insertBox []

/-- `MagicRecognition.box_texts_to_stacked_cards`
(text.py lines 113–135): sort, resolve, attach count labels, assemble.
`none` propagates the `IndexError` from `assign_stacked`. -/
def boxTextsToStackedCards (cards keywords : List String)
    (rNum rDen kNum kDen : ℕ) (bts : List BoxText) : Option Deck :=
  let sorted := sortBoxes bts
  let boxCards := boxTextsToCards cards keywords rNum rDen kNum kDen sorted
  match assignStacked sorted boxCards with
  | none => none
  | some bc => some (assemble bc)

/-! ## Helper lemmas about the edit distance -/

/-- The distance from the empty string is the length. -/
theorem lev_nil_left (t : List Char) : lev [] t = t.length := by
  induction t with
  | nil => simp [lev]
  | cons y ys ih => simp [lev] at ih ⊢; omega

/-- The distance to the empty string is the length. -/
theorem lev_nil_right (s : List Char) : lev s [] = s.length := by
  induction s with
  | nil => simp [lev]
  | cons x xs ih => simp [lev] at ih ⊢; omega

/-- Levenshtein distance dominates the length difference: a candidate
within distance `d` of a text is at most `d` longer than it. -/
theorem length_le_lev_add (s t : List Char) : t.length ≤ lev s t + s.length := by
  induction s generalizing t with
  | nil => rw [lev_nil_left]; omega
  | cons x xs ihx =>
    induction t with
    | nil => simp
    | cons y ys ihy =>
      have h1 := ihx (y :: ys)
      have h2 := ihx ys
      have h3 := ihy
      simp only [lev, levenshtein_cons_cons, Levenshtein.defaultCost_delete,
        Levenshtein.defaultCost_insert, Levenshtein.defaultCost_substitute,
        List.length_cons] at *
      generalize (if x = y then (0 : ℕ) else 1) = c at *
      omega

/-- The acceptance test of the truncated-path loop,
`d != -1 and d < dist` on `d = compare(pre, c, dist)`, holds exactly
when the Levenshtein distance is strictly below `dist`. -/
theorem compare_accept (a b : List Char) (mx : ℕ) :
    (compare a b mx ≠ -1 ∧ compare a b mx < (mx : Int)) ↔ lev a b < mx := by
  unfold compare
  split_ifs with h
  · omega
  · omega

/-! ## Helper lemmas about the truncated-path loop -/

/-- Invariant of the truncated-path loop: the final bound never exceeds
the initial one and is a lower bound for every scanned entry's prefix
distance; the final candidate is either unchanged (with unchanged
bound), or a scanned entry realizing the final bound, strictly below
the initial one. -/
theorem truncLoop_inv (pre : List Char) (i : ℕ) :
    ∀ (cs : List String) (dist : ℕ) (card : Option String),
      (truncLoop pre i cs dist card).2 ≤ dist ∧
      (∀ c ∈ cs, (truncLoop pre i cs dist card).2 ≤ lev pre (c.data.take i)) ∧
      ((truncLoop pre i cs dist card).1 = card ∧
          (truncLoop pre i cs dist card).2 = dist ∨
        ∃ c ∈ cs, (truncLoop pre i cs dist card).1 = some c ∧
          (truncLoop pre i cs dist card).2 = lev pre (c.data.take i) ∧
          (truncLoop pre i cs dist card).2 < dist) := by
  intro cs
  induction cs with
  | nil => intro dist card; simp [truncLoop]
  | cons c cs ih =>
    intro dist card
    by_cases h : compare pre (c.data.take i) dist ≠ -1 ∧
        compare pre (c.data.take i) dist < (dist : Int)
    · have hlt : lev pre (c.data.take i) < dist := (compare_accept _ _ _).mp h
      have hstep : truncLoop pre i (c :: cs) dist card =
          truncLoop pre i cs (lev pre (c.data.take i)) (some c) := by
        simp only [truncLoop]
        rw [if_pos h]
      obtain ⟨ha, hb, hc⟩ := ih (lev pre (c.data.take i)) (some c)
      rw [hstep]
      refine ⟨by omega, ?_, ?_⟩
      · intro c' hc'
        rcases List.mem_cons.mp hc' with heq | hmem
        · subst heq; exact ha
        · exact hb c' hmem
      · rcases hc with ⟨h1, h2⟩ | ⟨c', hmem, h1, h2, h3⟩
        · exact Or.inr ⟨c, List.mem_cons_self c cs, h1, h2, by omega⟩
        · exact Or.inr ⟨c', List.mem_cons_of_mem c hmem, h1, h2, by omega⟩
    · have hge : dist ≤ lev pre (c.data.take i) := by
        have := (compare_accept pre (c.data.take i) dist).not.mp h
        omega
      have hstep : truncLoop pre i (c :: cs) dist card =
          truncLoop pre i cs dist card := by
        simp only [truncLoop]
        rw [if_neg h]
      obtain ⟨ha, hb, hc⟩ := ih dist card
      rw [hstep]
      refine ⟨ha, ?_, ?_⟩
      · intro c' hc'
        rcases List.mem_cons.mp hc' with heq | hmem
        · subst heq; omega
        · exact hb c' hmem
      · rcases hc with ⟨h1, h2⟩ | ⟨c', hmem, h1, h2, h3⟩
        · exact Or.inl ⟨h1, h2⟩
        · exact Or.inr ⟨c', List.mem_cons_of_mem c hmem, h1, h2, h3⟩

/-! ## Helper lemmas about the fuzzy-lookup loop -/

/-- Any result of the lookup loop is the carried accumulator or comes
from the dictionary, and always carries its own distance. -/
theorem lookupLoop_mem (text : List Char) (maxEd : ℕ) :
    ∀ (cs : List String) (acc : Option (String × ℕ)) (c : String) (d : ℕ),
      lookupLoop text maxEd cs acc = some (c, d) →
      acc = some (c, d) ∨ (c ∈ cs ∧ d = lev text c.data) := by
  intro cs
  induction cs with
  | nil => intro acc c d h; exact Or.inl h
  | cons b cs ih =>
    intro acc c d h
    match acc with
    | none =>
      rw [lookupLoop] at h
      rcases ih _ c d h with hacc | ⟨hmem, hd⟩
      · split_ifs at hacc with hle
        · rw [Option.some.injEq, Prod.mk.injEq] at hacc
          obtain ⟨h1, h2⟩ := hacc
          subst h1
          exact Or.inr ⟨List.mem_cons_self b cs, h2.symm⟩
      · exact Or.inr ⟨List.mem_cons_of_mem b hmem, hd⟩
    | some (b', bd) =>
      rw [lookupLoop] at h
      rcases ih _ c d h with hacc | ⟨hmem, hd⟩
      · split_ifs at hacc with hlt
        · rw [Option.some.injEq, Prod.mk.injEq] at hacc
          obtain ⟨h1, h2⟩ := hacc
          subst h1
          exact Or.inr ⟨List.mem_cons_self b cs, h2.symm⟩
        · exact Or.inl hacc
      · exact Or.inr ⟨List.mem_cons_of_mem b hmem, hd⟩

/-- The lookup loop never returns a distance above the budget, provided
the carried accumulator respects it. -/
theorem lookupLoop_le (text : List Char) (maxEd : ℕ) :
    ∀ (cs : List String) (acc : Option (String × ℕ)),
      (∀ b bd, acc = some (b, bd) → bd ≤ maxEd) →
      ∀ c d, lookupLoop text maxEd cs acc = some (c, d) → d ≤ maxEd := by
  intro cs
  induction cs with
  | nil => intro acc hacc c d h; exact hacc c d h
  | cons b cs ih =>
    intro acc hacc c d h
    match acc with
    | none =>
      rw [lookupLoop] at h
      refine ih _ ?_ c d h
      intro b' bd' hb'
      split_ifs at hb' with hle
      · rw [Option.some.injEq, Prod.mk.injEq] at hb'
        obtain ⟨h1, h2⟩ := hb'
        omega
    | some (b0, bd0) =>
      rw [lookupLoop] at h
      have hbd0 : bd0 ≤ maxEd := hacc b0 bd0 rfl
      refine ih _ ?_ c d h
      intro b' bd' hb'
      split_ifs at hb' with hlt
      · rw [Option.some.injEq, Prod.mk.injEq] at hb'
        obtain ⟨h1, h2⟩ := hb'
        omega
      · rw [Option.some.injEq, Prod.mk.injEq] at hb'
        obtain ⟨h1, h2⟩ := hb'
        omega

/-- The lookup loop succeeds whenever it carries a hit already or some
dictionary entry is within the budget (symspellpy returns a nonempty
suggestion list in exactly these situations). -/
theorem lookupLoop_isSome (text : List Char) (maxEd : ℕ) :
    ∀ (cs : List String) (acc : Option (String × ℕ)),
      (acc.isSome ∨ ∃ k ∈ cs, lev text k.data ≤ maxEd) →
      (lookupLoop text maxEd cs acc).isSome := by
  intro cs
  induction cs with
  | nil =>
    intro acc h
    rcases h with h | ⟨k, hk, -⟩
    · simpa [lookupLoop] using h
    · cases hk
  | cons b cs ih =>
    intro acc h
    match acc with
    | none =>
      rw [lookupLoop]
      rcases h with h | ⟨k, hk, hle⟩
      · simp at h
      · rcases List.mem_cons.mp hk with heq | hmem
        · subst heq
          rw [if_pos hle]
          exact ih _ (Or.inl rfl)
        · split_ifs with hb
          · exact ih _ (Or.inl rfl)
          · exact ih _ (Or.inr ⟨k, hmem, hle⟩)
    | some (b0, bd0) =>
      rw [lookupLoop]
      split_ifs with hb
      · exact ih _ (Or.inl rfl)
      · exact ih _ (Or.inl rfl)

/-! ## Path lemmas for `search` -/

/-- On an in-range text that is not an exact member and contains the
`".."` marker, `search` is the truncated-path loop (and never reaches
the fuzzy branch). -/
theorem search_trunc_eq (cards : List String) (rNum rDen : ℕ) (text : String)
    (i : ℕ) (h3 : ¬ text.length < 3) (h30 : ¬ 30 < text.length)
    (hmem : text ∉ cards) (hdots : findDots text.data = some i) :
    search cards rNum rDen text =
      (truncLoop (text.data.take i) i cards (ratioFloor rNum rDen i) none).1 := by
  unfold search
  rw [if_neg h3, if_neg h30, if_neg hmem, hdots]

/-- On an in-range text that is not an exact member and has no `".."`
marker, `search` is the guarded fuzzy lookup on the period-stripped
text. -/
theorem search_fuzzy_eq (cards : List String) (rNum rDen : ℕ) (text : String)
    (h3 : ¬ text.length < 3) (h30 : ¬ 30 < text.length)
    (hmem : text ∉ cards) (hdots : findDots text.data = none) :
    search cards rNum rDen text =
      (match lookupClosest cards (stripDots text.data)
          (min 6 (ratioFloor rNum rDen (stripDots text.data).length)) with
        | none => none
        | some (c, _) =>
          if (stripDots text.data).length < c.length + 7 then some c else none) := by
  unfold search
  rw [if_neg h3, if_neg h30, if_neg hmem, hdots]

/-- Every name `search` returns belongs to the card index. -/
theorem search_mem (cards : List String) (rNum rDen : ℕ) (text c : String)
    (hsome : search cards rNum rDen text = some c) : c ∈ cards := by
  by_cases h3 : text.length < 3
  · unfold search at hsome
    rw [if_pos h3] at hsome
    cases hsome
  by_cases h30 : 30 < text.length
  · unfold search at hsome
    rw [if_neg h3, if_pos h30] at hsome
    cases hsome
  by_cases hm : text ∈ cards
  · unfold search at hsome
    rw [if_neg h3, if_neg h30, if_pos hm] at hsome
    rw [Option.some.injEq] at hsome
    exact hsome ▸ hm
  cases hdots : findDots text.data with
  | some i =>
    rw [search_trunc_eq cards rNum rDen text i h3 h30 hm hdots] at hsome
    obtain ⟨-, -, hc⟩ :=
      truncLoop_inv (text.data.take i) i cards (ratioFloor rNum rDen i) none
    rcases hc with ⟨h1, -⟩ | ⟨c', hmem', h1, -, -⟩
    · rw [h1] at hsome; cases hsome
    · rw [h1, Option.some.injEq] at hsome
      exact hsome ▸ hmem'
  | none =>
    rw [search_fuzzy_eq cards rNum rDen text h3 h30 hm hdots] at hsome
    cases hlk : lookupClosest cards (stripDots text.data)
        (min 6 (ratioFloor rNum rDen (stripDots text.data).length)) with
    | none => rw [hlk] at hsome; cases hsome
    | some p =>
      obtain ⟨b, d⟩ := p
      rw [hlk] at hsome
      dsimp only at hsome
      rcases lookupLoop_mem (stripDots text.data) _ cards none b d hlk with hc | ⟨hmem', -⟩
      · cases hc
      · split_ifs at hsome with hg
        rw [Option.some.injEq] at hsome
        exact hsome ▸ hmem'

/-! ## Helper lemmas about piles and the deck-assembly loop -/

/-- `add_cards` adds exactly `n` copies to a pile's total (also when
`n = 0`, where it adds nothing). -/
theorem pileSum_pileAdd (p : List (String × ℕ)) (card : String) (n : ℕ) :
    pileSum (pileAdd p card n) = pileSum p + n := by
  induction p with
  | nil =>
    unfold pileAdd
    split_ifs with h
    · simp [pileSum]
    · simp [pileSum]; omega
  | cons e rest ih =>
    obtain ⟨c, q⟩ := e
    unfold pileAdd
    split_ifs with h
    · simp [pileSum]; omega
    · simp only [pileSum, List.map_cons, List.sum_cons] at ih ⊢
      omega

/-- Adding zero copies leaves a pile unchanged. -/
theorem pileAdd_zero (p : List (String × ℕ)) (card : String) :
    pileAdd p card 0 = p := by
  induction p with
  | nil => rfl
  | cons e rest ih =>
    obtain ⟨c, q⟩ := e
    unfold pileAdd
    split_ifs with h
    · rw [h]; simp
    · rw [ih]

/-- Every entry of `pileAdd p card n` is an entry of `p` or keyed by
`card`. -/
theorem mem_pileAdd (p : List (String × ℕ)) (card : String) (n : ℕ)
    (x : String × ℕ) (h : x ∈ pileAdd p card n) : x ∈ p ∨ x.1 = card := by
  induction p with
  | nil =>
    unfold pileAdd at h
    split_ifs at h with h0
    · rw [List.mem_singleton] at h
      exact Or.inr (by rw [h])
    · cases h
  | cons e rest ih =>
    obtain ⟨c, q⟩ := e
    unfold pileAdd at h
    split_ifs at h with hc
    · rcases List.mem_cons.mp h with heq | hmem
      · exact Or.inr (by rw [heq, ← hc])
      · exact Or.inl (List.mem_cons_of_mem _ hmem)
    · rcases List.mem_cons.mp h with heq | hmem
      · exact Or.inl (heq ▸ List.mem_cons_self _ _)
      · rcases ih hmem with h' | h'
        · exact Or.inl (List.mem_cons_of_mem _ h')
        · exact Or.inr h'

/-- The assembly loop conserves the total number of copies. -/
theorem assembleLoop_sum (cs : List BoxText) :
    ∀ (lastMain nAdded : ℕ) (md sb : List (String × ℕ)),
      pileSum (assembleLoop cs lastMain nAdded md sb).1 +
        pileSum (assembleLoop cs lastMain nAdded md sb).2 =
        pileSum md + pileSum sb + (cs.map (·.n)).sum := by
  induction cs with
  | nil => intro _ _ _ _; simp [assembleLoop]
  | cons bt rest ih =>
    intro lastMain nAdded md sb
    simp only [assembleLoop]
    rw [ih, pileSum_pileAdd, pileSum_pileAdd]
    simp only [List.map_cons, List.sum_cons]
    omega

/-- When the running total never reaches `lastMain`, the sideboard is
left untouched. -/
theorem assembleLoop_sb_empty (cs : List BoxText) :
    ∀ (lastMain nAdded : ℕ) (md sb : List (String × ℕ)),
      nAdded + (cs.map (·.n)).sum ≤ lastMain →
      (assembleLoop cs lastMain nAdded md sb).2 = sb := by
  induction cs with
  | nil => intro _ _ _ _ _; simp [assembleLoop]
  | cons bt rest ih =>
    intro lastMain nAdded md sb h
    simp only [List.map_cons, List.sum_cons] at h
    simp only [assembleLoop]
    have hn : max (min bt.n (lastMain - nAdded)) 0 = bt.n := by omega
    rw [hn, Nat.sub_self, pileAdd_zero]
    exact ih _ _ _ _ (by omega)

/-- The maindeck receives `min(remaining copies, remaining maindeck
slots)` in total. -/
theorem assembleLoop_main_sum (cs : List BoxText) :
    ∀ (lastMain nAdded : ℕ) (md sb : List (String × ℕ)),
      pileSum (assembleLoop cs lastMain nAdded md sb).1 =
        pileSum md + min ((cs.map (·.n)).sum) (lastMain - nAdded) := by
  induction cs with
  | nil => intro _ _ _ _; simp [assembleLoop]
  | cons bt rest ih =>
    intro lastMain nAdded md sb
    simp only [assembleLoop]
    rw [ih, pileSum_pileAdd]
    simp only [List.map_cons, List.sum_cons]
    omega

/-- Keys produced by the assembly loop come from the accumulators or
from the card names of the walked entries. -/
theorem assembleLoop_keys (cs : List BoxText) :
    ∀ (lastMain nAdded : ℕ) (md sb : List (String × ℕ)) (x : String × ℕ),
      (x ∈ (assembleLoop cs lastMain nAdded md sb).1 →
        x ∈ md ∨ x.1 ∈ cs.map (·.text)) ∧
      (x ∈ (assembleLoop cs lastMain nAdded md sb).2 →
        x ∈ sb ∨ x.1 ∈ cs.map (·.text)) := by
  induction cs with
  | nil =>
    intro _ _ _ _ x
    constructor
    · intro h; exact Or.inl h
    · intro h; exact Or.inl h
  | cons bt rest ih =>
    intro lastMain nAdded md sb x
    simp only [assembleLoop]
    constructor
    · intro h
      rcases (ih _ _ _ _ x).1 h with h' | h'
      · rcases mem_pileAdd _ _ _ _ h' with h'' | h''
        · exact Or.inl h''
        · exact Or.inr (by simp [h''])
      · exact Or.inr (by rw [List.map_cons]; exact List.mem_cons_of_mem _ h')
    · intro h
      rcases (ih _ _ _ _ x).2 h with h' | h'
      · rcases mem_pileAdd _ _ _ _ h' with h'' | h''
        · exact Or.inl h''
        · exact Or.inr (by simp [h''])
      · exact Or.inr (by rw [List.map_cons]; exact List.mem_cons_of_mem _ h')

/-- Every key of an assembled deck is the card name of some resolved
entry. -/
theorem assemble_keys (boxCards : List BoxText) (x : String × ℕ)
    (h : x ∈ (assemble boxCards).maindeck ∨ x ∈ (assemble boxCards).sideboard) :
    x.1 ∈ boxCards.map (·.text) := by
  simp only [assemble] at h
  rcases h with h | h
  · rcases (assembleLoop_keys boxCards _ _ [] [] x).1 h with h' | h'
    · cases h'
    · exact h'
  · rcases (assembleLoop_keys boxCards _ _ [] [] x).2 h with h' | h'
    · cases h'
    · exact h'

/-! ## Helper lemmas about sorting and the quantity assigner -/

/-- Membership is preserved into `insertBox`. -/
theorem mem_insertBox (b : BoxText) (l : List BoxText) (x : BoxText) :
    x ∈ insertBox b l ↔ x = b ∨ x ∈ l := by
  induction l with
  | nil => simp [insertBox]
  | cons y ys ih =>
    unfold insertBox
    split_ifs with h
    · simp [List.mem_cons]
    · simp only [List.mem_cons, ih]; tauto

/-- `sortBoxes` is a permutation as far as membership is concerned. -/
theorem mem_sortBoxes (l : List BoxText) (x : BoxText) :
    x ∈ sortBoxes l ↔ x ∈ l := by
  induction l with
  | nil => simp [sortBoxes]
  | cons y ys ih =>
    simp only [sortBoxes, List.foldr_cons] at ih ⊢
    rw [mem_insertBox, ih, List.mem_cons]

/-- A true `comp_sb` outcome certifies the directional gate: both
coordinates of the candidate are at most the label's. -/
theorem compSb_gate (b p q : Int × Int) (h : compSb b p q = true) :
    p.1 ≤ b.1 ∧ p.2 ≤ b.2 := by
  unfold compSb at h
  split_ifs at h with hg
  constructor <;> omega

/-- Invariant of the `assign_stacked_one` argmin loop for `comp_sb`:
the selected index is the initial index 0, or an index whose box passes
the directional gate. -/
theorem iMinLoop_compSb_gate (b : Int × Int) (boxCards : List BoxText) :
    iMinLoop (compSb b) boxCards = 0 ∨
      ((boxCards.getD (iMinLoop (compSb b) boxCards) dummyBox).box.1 ≤ b.1 ∧
        (boxCards.getD (iMinLoop (compSb b) boxCards) dummyBox).box.2 ≤ b.2) := by
  unfold iMinLoop
  generalize List.range boxCards.length = l
  have aux : ∀ (l : List ℕ) (init : ℕ),
      (init = 0 ∨
        ((boxCards.getD init dummyBox).box.1 ≤ b.1 ∧
          (boxCards.getD init dummyBox).box.2 ≤ b.2)) →
      (l.foldl
          (fun im i =>
            if compSb b (boxCards.getD i dummyBox).box (boxCards.getD im dummyBox).box
            then i else im) init = 0 ∨
        ((boxCards.getD
            (l.foldl
              (fun im i =>
                if compSb b (boxCards.getD i dummyBox).box (boxCards.getD im dummyBox).box
                then i else im) init) dummyBox).box.1 ≤ b.1 ∧
          (boxCards.getD
            (l.foldl
              (fun im i =>
                if compSb b (boxCards.getD i dummyBox).box (boxCards.getD im dummyBox).box
                then i else im) init) dummyBox).box.2 ≤ b.2)) := by
    intro l
    induction l with
    | nil => intro init h; exact h
    | cons i l ih =>
      intro init h
      rw [List.foldl_cons]
      split_ifs with hcomp
      · exact ih i (Or.inr (compSb_gate _ _ _ hcomp))
      · exact ih init h
  exact aux l 0 (Or.inl rfl)

/-- `assign_stacked_one` only rewrites a count: every element of the
output has the text of an element of the input. -/
theorem assignStackedOne_texts (bc : List BoxText) (m : ℕ)
    (comp : Int × Int → Int × Int → Bool) (bc' : List BoxText)
    (h : assignStackedOne bc m comp = some bc') (bt : BoxText) (hbt : bt ∈ bc') :
    ∃ b0 ∈ bc, bt.text = b0.text := by
  unfold assignStackedOne at h
  split_ifs at h with him
  · rw [Option.some.injEq] at h
    subst h
    rcases List.mem_or_eq_of_mem_set hbt with hmem | heq
    · exact ⟨bt, hmem, rfl⟩
    · subst heq
      refine ⟨bc.getD (iMinLoop comp bc) dummyBox, ?_, rfl⟩
      rw [List.getD_eq_getElem bc dummyBox him]
      exact List.getElem_mem him

/-- `assign_stacked_one` on the empty resolved list crashes:
`i_min = 0` indexes out of bounds. -/
theorem assignStackedOne_nil (m : ℕ) (comp : Int × Int → Int × Int → Bool) :
    assignStackedOne [] m comp = none := rfl

/-- One label application only rewrites counts: texts come from the
input list. -/
theorem labelStep_texts (bc : List BoxText) (box : Int × Int) (t : String)
    (bc' : List BoxText) (h : labelStep bc box t = some bc')
    (bt : BoxText) (hbt : bt ∈ bc') : ∃ b0 ∈ bc, bt.text = b0.text := by
  unfold labelStep at h
  rcases hd : t.data with - | ⟨c0, - | ⟨c1, - | ⟨c2, rest⟩⟩⟩ <;> rw [hd] at h <;>
    dsimp only at h
  · rw [Option.some.injEq] at h; subst h; exact ⟨bt, hbt, rfl⟩
  · rw [Option.some.injEq] at h; subst h; exact ⟨bt, hbt, rfl⟩
  · cases hstep0 : (if isGlyph c0 && c1.isDigit then
        assignStackedOne bc (digitVal c1) (compMd box) else some bc) with
    | none => rw [hstep0] at h; cases h
    | some bc1 =>
      rw [hstep0] at h
      dsimp only at h
      have h1 : ∀ b1 ∈ bc1, ∃ b0 ∈ bc, b1.text = b0.text := by
        intro b1 hb1
        split_ifs at hstep0 with hfire
        · exact assignStackedOne_texts bc _ _ bc1 hstep0 b1 hb1
        · rw [Option.some.injEq] at hstep0; subst hstep0; exact ⟨b1, hb1, rfl⟩
      split_ifs at h with hfire1
      · obtain ⟨b1, hb1, he1⟩ := assignStackedOne_texts bc1 _ _ bc' h bt hbt
        obtain ⟨b0, hb0, he0⟩ := h1 b1 hb1
        exact ⟨b0, hb0, he1.trans he0⟩
      · rw [Option.some.injEq] at h; subst h; exact h1 bt hbt
  · rw [Option.some.injEq] at h; subst h; exact ⟨bt, hbt, rfl⟩

/-- `assign_stacked` only rewrites counts: texts of a successful output
come from the resolved input. -/
theorem assignStacked_texts (bts : List BoxText) :
    ∀ (bc bc' : List BoxText), assignStacked bts bc = some bc' →
      ∀ bt ∈ bc', ∃ b0 ∈ bc, bt.text = b0.text := by
  induction bts with
  | nil =>
    intro bc bc' h bt hbt
    unfold assignStacked at h
    rw [Option.some.injEq] at h
    subst h
    exact ⟨bt, hbt, rfl⟩
  | cons b rest ih =>
    intro bc bc' h bt hbt
    unfold assignStacked at h
    cases hls : labelStep bc b.box b.text with
    | none => rw [hls] at h; cases h
    | some bc1 =>
      rw [hls] at h
      obtain ⟨b1, hb1, he1⟩ := ih bc1 bc' h bt hbt
      obtain ⟨b0, hb0, he0⟩ := labelStep_texts bc b.box b.text bc1 hls b1 hb1
      exact ⟨b0, hb0, he1.trans he0⟩

/-! ## Helper lemmas about the keyword filter and fragment resolution -/

/-- A fragment whose raw text is within the keyword budget of some
keyword is dropped by `box_texts_to_cards`. -/
theorem processBox_keyword_reject (cards keywords : List String)
    (rNum rDen kNum kDen : ℕ) (bt : BoxText)
    (h : ∃ k ∈ keywords,
      lev bt.text.data k.data ≤ min 3 (ratioFloor kNum kDen bt.text.length)) :
    processBox cards keywords rNum rDen kNum kDen bt = none := by
  unfold processBox
  rw [if_pos]
  exact lookupLoop_isSome bt.text.data _ keywords none (Or.inr h)

/-- Every fragment emitted by `box_texts_to_cards` carries a card name
from the index. -/
theorem boxTextsToCards_mem (cards keywords : List String)
    (rNum rDen kNum kDen : ℕ) (bts : List BoxText) (bt : BoxText)
    (h : bt ∈ boxTextsToCards cards keywords rNum rDen kNum kDen bts) :
    bt.text ∈ cards := by
  unfold boxTextsToCards at h
  obtain ⟨a, -, ha⟩ := List.mem_filterMap.mp h
  unfold processBox at ha
  split_ifs at ha with hk
  cases hs : search cards rNum rDen (preprocess a.text) with
  | none => rw [hs] at ha; cases ha
  | some card =>
    rw [hs] at ha
    dsimp only at ha
    rw [Option.some.injEq] at ha
    subst ha
    exact search_mem cards rNum rDen (preprocess a.text) card hs

/-- The period stripping of the fuzzy path never lengthens a text. -/
theorem stripDots_length_le (l : List Char) : (stripDots l).length ≤ l.length := by
  unfold stripDots rstripSpace
  calc ((l.filter (fun c => ¬ c = Char.ofNat 46)).reverse.dropWhile
          (fun c => c = Char.ofNat 32)).reverse.length
      = ((l.filter (fun c => ¬ c = Char.ofNat 46)).reverse.dropWhile
          (fun c => c = Char.ofNat 32)).length := List.length_reverse _
    _ ≤ (l.filter (fun c => ¬ c = Char.ofNat 46)).reverse.length :=
        (List.dropWhile_sublist _).length_le
    _ = (l.filter (fun c => ¬ c = Char.ofNat 46)).length := List.length_reverse _
    _ ≤ l.length := l.length_filter_le _

/-! ## Helper lemmas for the empty-resolved-list crash -/

/-- The multiplier glyphs are not decimal digits. -/
theorem isGlyph_not_digit (c : Char) (h : isGlyph c = true) : c.isDigit = false := by
  unfold isGlyph at h
  rcases Bool.or_eq_true_iff.mp h with h' | h''
  · rcases Bool.or_eq_true_iff.mp h' with h1 | h2
    · rw [decide_eq_true_eq] at h1; subst h1; decide
    · rw [decide_eq_true_eq] at h2; subst h2; decide
  · rw [decide_eq_true_eq] at h''; subst h''; decide

/-- A label step over the empty resolved list either leaves it empty or
crashes. -/
theorem labelStep_nil (box : Int × Int) (t : String) :
    labelStep [] box t = some [] ∨ labelStep [] box t = none := by
  unfold labelStep
  rcases t.data with - | ⟨c0, - | ⟨c1, - | ⟨c2, rest⟩⟩⟩ <;> dsimp only
  · exact Or.inl rfl
  · exact Or.inl rfl
  · split_ifs with h0 h1 h1
    · exact Or.inr rfl
    · exact Or.inr rfl
    · exact Or.inr rfl
    · exact Or.inl rfl
  · exact Or.inl rfl

/-- A label step on an actual count label over the empty resolved list
crashes (the out-of-bounds write of `assign_stacked_one`). -/
theorem labelStep_nil_label (box : Int × Int) (t : String) (c0 c1 : Char)
    (ht : t.data = [c0, c1])
    (hl : (isGlyph c0 = true ∧ c1.isDigit = true) ∨
      (isGlyph c1 = true ∧ c0.isDigit = true)) :
    labelStep [] box t = none := by
  unfold labelStep
  rw [ht]
  dsimp only
  rcases hl with ⟨hg, hd⟩ | ⟨hg, hd⟩
  · rw [if_pos (by rw [hg, hd]; rfl)]
    rw [assignStackedOne_nil]
  · have h0 : (isGlyph c0 && c1.isDigit) = false := by
      rw [isGlyph_not_digit c1 hg, Bool.and_false]
    rw [if_neg (by rw [h0]; exact Bool.false_ne_true)]
    dsimp only
    rw [if_pos (by rw [hg, hd]; rfl), assignStackedOne_nil]

/-- When the resolved list is empty and some original fragment is a
count label, `assign_stacked` crashes. -/
theorem assignStacked_nil_label (bts : List BoxText) (bt : BoxText) (c0 c1 : Char)
    (hmem : bt ∈ bts) (ht : bt.text.data = [c0, c1])
    (hl : (isGlyph c0 = true ∧ c1.isDigit = true) ∨
      (isGlyph c1 = true ∧ c0.isDigit = true)) :
    assignStacked bts [] = none := by
  induction bts with
  | nil => cases hmem
  | cons b rest ih =>
    unfold assignStacked
    rcases List.mem_cons.mp hmem with heq | hmem'
    · subst heq
      rw [labelStep_nil_label bt.box bt.text c0 c1 ht hl]
    · rcases labelStep_nil b.box b.text with hsome | hnone
      · rw [hsome]
        exact ih hmem'
      · rw [hnone]

/-! ## Claim theorems -/

/-- Claim C1 (amended): for every name in CardIndex whose length is
between 3 and 30 inclusive, `resolve(name)` returns the name unchanged;
the exact path fires before any truncated or fuzzy matching.  (The
length guard precedes the exact check, so the bounds are necessary:
see the counterexample.) -/
theorem exact_member_resolves_to_itself (cards : List String) (rNum rDen : ℕ)
    (name : String) (h3 : 3 ≤ name.length) (h30 : name.length ≤ 30)
    (hmem : name ∈ cards) : search cards rNum rDen name = some name := by
  unfold search
  rw [if_neg (by omega), if_neg (by omega), if_pos hmem]

/-- Witness for C1 (amended) at a concrete index and name. -/
theorem exact_member_resolves_to_itself_witness :
    search ["Island", "Forest"] 3 10 "Island" = some "Island" :=
  exact_member_resolves_to_itself ["Island", "Forest"] 3 10 "Island"
    (by decide) (by decide) (by decide)

/-- Counterexample to claim C1 as stated: a member of CardIndex longer
than 30 characters (a real Vintage-legal card name) is not returned
unchanged — the length guard fires before the exact path and resolution
yields no match. -/
theorem exact_member_counterexample :
    "Okina, Temple to the Grandfathers" ∈ ["Okina, Temple to the Grandfathers"] ∧
    search ["Okina, Temple to the Grandfathers"] 3 10
      "Okina, Temple to the Grandfathers" = none := by
  constructor
  · decide
  · decide

/-- Claim C8: any text shorter than 3 characters or longer than 30
characters resolves to no match. -/
theorem length_guard_no_match (cards : List String) (rNum rDen : ℕ)
    (text : String) (h : text.length < 3 ∨ 30 < text.length) :
    search cards rNum rDen text = none := by
  unfold search
  rcases h with h | h
  · rw [if_pos h]
  · rw [if_neg (by omega), if_pos h]

/-- Witness for C8 at concrete short and long inputs. -/
theorem length_guard_no_match_witness :
    search ["Island"] 3 10 "ab" = none ∧
    search ["Island"] 3 10 "abcdefghijklmnopqrstuvwxyzabcdefghij" = none :=
  ⟨length_guard_no_match ["Island"] 3 10 "ab" (Or.inl (by decide)),
   length_guard_no_match ["Island"] 3 10 "abcdefghijklmnopqrstuvwxyzabcdefghij"
     (Or.inr (by decide))⟩

/-- Claim C2 (amended): on the truncated path (text in range, not an
exact member, containing the `".."` marker at index `i`), any returned
candidate is an index entry whose prefix edit distance over the first
`i` characters is strictly less than `⌊name_ratio * i⌋` and less than
or equal to the prefix distance of every other index entry (ties keep
the earliest entry, so strictness over *all* other entries fails: see
the counterexample); if no entry's prefix distance is below the bound,
the result is no match — the truncated path never falls through to the
fuzzy path. -/
theorem truncated_path_best_match (cards : List String) (rNum rDen : ℕ)
    (text : String) (i : ℕ) (h3 : ¬ text.length < 3) (h30 : ¬ 30 < text.length)
    (hmem : text ∉ cards) (hdots : findDots text.data = some i) :
    (∀ c, search cards rNum rDen text = some c →
      c ∈ cards ∧
      lev (text.data.take i) (c.data.take i) < ratioFloor rNum rDen i ∧
      ∀ c' ∈ cards,
        lev (text.data.take i) (c.data.take i) ≤
          lev (text.data.take i) (c'.data.take i)) ∧
    ((∀ c' ∈ cards,
        ¬ lev (text.data.take i) (c'.data.take i) < ratioFloor rNum rDen i) →
      search cards rNum rDen text = none) := by
  have hs := search_trunc_eq cards rNum rDen text i h3 h30 hmem hdots
  obtain ⟨ha, hb, hc⟩ :=
    truncLoop_inv (text.data.take i) i cards (ratioFloor rNum rDen i) none
  constructor
  · intro c hcsome
    rw [hs] at hcsome
    rcases hc with ⟨h1, -⟩ | ⟨c', hmem', h1, h2, hlt⟩
    · rw [h1] at hcsome; cases hcsome
    · rw [h1, Option.some.injEq] at hcsome
      subst hcsome
      refine ⟨hmem', ?_, ?_⟩
      · omega
      · intro c'' hm
        have := hb c'' hm
        omega
  · intro hnone
    rcases hc with ⟨h1, -⟩ | ⟨c', hmem', h1, h2, hlt⟩
    · rw [hs, h1]
    · exact absurd (by omega : lev (text.data.take i) (c'.data.take i) <
        ratioFloor rNum rDen i) (hnone c' hmem')

/-- Witness for C2 (amended) at a concrete truncated input. -/
theorem truncated_path_best_match_witness :
    "Islaone" ∈ ["Islaone", "Islbxyz"] ∧
    lev ("Isla..".data.take 4) ("Islaone".data.take 4) < ratioFloor 3 10 4 ∧
    ∀ c' ∈ ["Islaone", "Islbxyz"],
      lev ("Isla..".data.take 4) ("Islaone".data.take 4) ≤
        lev ("Isla..".data.take 4) (c'.data.take 4) :=
  (truncated_path_best_match ["Islaone", "Islbxyz"] 3 10 "Isla.." 4
    (by decide) (by decide) (by decide) (by decide)).1 "Islaone" (by decide)

/-- Counterexample to claim C2 as stated: with two index entries at
equal (zero) prefix distance, the loop returns the earliest entry, whose
prefix distance is *not* strictly less than that of the other entry. -/
theorem truncated_path_strictness_counterexample :
    ¬ (∀ c, search ["Islaone", "Islatwo"] 3 10 "Isla.." = some c →
        ∀ c' ∈ ["Islaone", "Islatwo"], c' ≠ c →
          lev ("Isla..".data.take 4) (c.data.take 4) <
            lev ("Isla..".data.take 4) (c'.data.take 4)) := by
  intro h
  have := h "Islaone" (by decide) "Islatwo" (by decide) (by decide)
  revert this
  decide

/-- Claim C3: on the fuzzy path, no accepted candidate is 7 or more
characters longer than the (period-stripped) text: its length is
strictly below `len(text) + 7`, so a candidate of length exactly
`len(text) + 7` can never be returned.  (This holds because the lookup
budget is capped at 6, which already excludes any candidate 7 or more
characters longer; the explicit guard `len(text) < len(candidate) + 7`
rejects in the opposite direction.) -/
theorem fuzzy_no_long_candidate (cards : List String) (rNum rDen : ℕ)
    (text c : String) (hmem : text ∉ cards) (hdots : findDots text.data = none)
    (hsome : search cards rNum rDen text = some c) :
    c.length < (stripDots text.data).length + 7 ∧ c.length < text.length + 7 := by
  by_cases h3 : text.length < 3
  · unfold search at hsome; rw [if_pos h3] at hsome; cases hsome
  by_cases h30 : 30 < text.length
  · unfold search at hsome; rw [if_neg h3, if_pos h30] at hsome; cases hsome
  rw [search_fuzzy_eq cards rNum rDen text h3 h30 hmem hdots] at hsome
  cases hlk : lookupClosest cards (stripDots text.data)
      (min 6 (ratioFloor rNum rDen (stripDots text.data).length)) with
  | none => rw [hlk] at hsome; cases hsome
  | some p =>
    obtain ⟨b, d⟩ := p
    rw [hlk] at hsome
    dsimp only at hsome
    split_ifs at hsome with hg
    rw [Option.some.injEq] at hsome
    subst hsome
    have hdle : d ≤ min 6 (ratioFloor rNum rDen (stripDots text.data).length) :=
      lookupLoop_le (stripDots text.data) _ cards none
        (by intro b' bd' h'; cases h') b d hlk
    have hdist : d = lev (stripDots text.data) b.data := by
      rcases lookupLoop_mem (stripDots text.data) _ cards none b d hlk with h' | ⟨-, h'⟩
      · cases h'
      · exact h'
    have hlen : b.data.length ≤ lev (stripDots text.data) b.data +
        (stripDots text.data).length := length_le_lev_add _ _
    have hstrip : (stripDots text.data).length ≤ text.length :=
      stripDots_length_le text.data
    have hblen : b.length = b.data.length := rfl
    have htlen : text.length = text.data.length := rfl
    constructor
    · omega
    · omega

/-- Witness for C3 at a concrete fuzzy resolution. -/
theorem fuzzy_no_long_candidate_witness :
    "Island".length < (stripDots "Islanc".data).length + 7 ∧
    "Island".length < "Islanc".length + 7 :=
  fuzzy_no_long_candidate ["Island"] 3 10 "Islanc" "Island"
    (by decide) (by decide) (by decide)

/-- Claim C4 (amended): a fragment whose *raw* text of length L is
within edit distance `min(3, ⌊keyword_ratio * L⌋)` of some KeywordIndex
entry is rejected: it contributes nothing to the resolved output.  (The
code runs the keyword lookup on the raw fragment text; normalization is
applied only afterwards, for the card search — see the counterexample
for the claim's "normalized text" reading.) -/
theorem keyword_reject_no_contribution (cards keywords : List String)
    (rNum rDen kNum kDen : ℕ) (bt : BoxText) (pre post : List BoxText)
    (h : ∃ k ∈ keywords,
      lev bt.text.data k.data ≤ min 3 (ratioFloor kNum kDen bt.text.length)) :
    boxTextsToCards cards keywords rNum rDen kNum kDen (pre ++ bt :: post) =
      boxTextsToCards cards keywords rNum rDen kNum kDen (pre ++ post) := by
  unfold boxTextsToCards
  rw [List.filterMap_append, List.filterMap_append, List.filterMap_cons,
    processBox_keyword_reject cards keywords rNum rDen kNum kDen bt h]

/-- Witness for C4 (amended): a raw keyword fragment is dropped. -/
theorem keyword_reject_no_contribution_witness :
    boxTextsToCards ["Flying"] ["Flying"] 3 10 2 10 [⟨(0, 0), "Flying", 1⟩] =
      boxTextsToCards ["Flying"] ["Flying"] 3 10 2 10 [] :=
  keyword_reject_no_contribution ["Flying"] ["Flying"] 3 10 2 10
    ⟨(0, 0), "Flying", 1⟩ [] [] (by decide)

/-- Counterexample to claim C4 as stated: a fragment whose *normalized*
text ("Flying", length 6) is within the keyword budget
`min(3, ⌊0.2·6⌋) = 1` of the keyword "Flying" (distance 0), yet whose
raw text "Flying12" is beyond the raw-text budget, is *not* rejected:
it resolves and contributes a box to the output. -/
theorem keyword_normalized_counterexample :
    (∃ k ∈ ["Flying"], lev (preprocess "Flying12").data k.data ≤
      min 3 (ratioFloor 2 10 (preprocess "Flying12").length)) ∧
    boxTextsToCards ["Flying"] ["Flying"] 3 10 2 10 [⟨(0, 0), "Flying12", 1⟩] =
      [⟨(0, 0), "Flying", 1⟩] := by
  constructor
  · decide
  · decide

/-- Claim C5: the assembled deck conserves the total count — maindeck
plus sideboard quantities equal the sum of the resolved counts — and a
total of at most 60 goes entirely to the maindeck, leaving the
sideboard empty. -/
theorem deck_split_conservation (boxCards : List BoxText) :
    pileSum (assemble boxCards).maindeck + pileSum (assemble boxCards).sideboard =
      (boxCards.map (·.n)).sum ∧
    ((boxCards.map (·.n)).sum ≤ 60 → (assemble boxCards).sideboard = []) := by
  constructor
  · simp only [assemble]
    rw [assembleLoop_sum]
    simp [pileSum]
  · intro h
    simp only [assemble]
    exact assembleLoop_sb_empty boxCards _ 0 [] [] (by omega)

/-- Witness for C5 at a concrete resolved list. -/
theorem deck_split_conservation_witness :
    pileSum (assemble [⟨(0, 0), "Aaa", 2⟩]).maindeck +
        pileSum (assemble [⟨(0, 0), "Aaa", 2⟩]).sideboard =
      ([(⟨(0, 0), "Aaa", 2⟩ : BoxText)].map (·.n)).sum ∧
    (assemble [⟨(0, 0), "Aaa", 2⟩]).sideboard = [] :=
  ⟨(deck_split_conservation [⟨(0, 0), "Aaa", 2⟩]).1,
   (deck_split_conservation [⟨(0, 0), "Aaa", 2⟩]).2 (by decide)⟩

/-- Claim C6: the Deck Assembler computes
`last_main_card = max(60, total − 15)` and walks entries in stable box
order, filling the maindeck with exactly the first `last_main_card`
copies (in scan order) and the sideboard with the rest: the maindeck
total is `min(total, last_main_card)` and the sideboard total is the
remainder; concretely, 65 total units in scan order put the first 60
units in the maindeck and the last 5 in the sideboard, splitting the
third entry. -/
theorem deck_assembler_split :
    (∀ boxCards : List BoxText,
      pileSum (assemble boxCards).maindeck =
        min ((boxCards.map (·.n)).sum)
          (max 60 ((boxCards.map (·.n)).sum - 15)) ∧
      pileSum (assemble boxCards).sideboard =
        (boxCards.map (·.n)).sum -
          max 60 ((boxCards.map (·.n)).sum - 15)) ∧
    assemble [⟨(0, 0), "Aaa", 30⟩, ⟨(0, 1), "Bbb", 28⟩, ⟨(0, 2), "Ccc", 7⟩] =
      ⟨[("Aaa", 30), ("Bbb", 28), ("Ccc", 2)], [("Ccc", 5)]⟩ := by
  constructor
  · intro boxCards
    have h1 : pileSum (assemble boxCards).maindeck =
        min ((boxCards.map (·.n)).sum)
          (max 60 ((boxCards.map (·.n)).sum - 15)) := by
      simp only [assemble]
      rw [assembleLoop_main_sum]
      simp [pileSum]
    have h2 : pileSum (assemble boxCards).maindeck +
        pileSum (assemble boxCards).sideboard = (boxCards.map (·.n)).sum := by
      simp only [assemble]
      rw [assembleLoop_sum]
      simp [pileSum]
    exact ⟨h1, by omega⟩
  · decide

/-- Claim C7 (amended): under the direction-gated comparator used for
digit-before-glyph labels, any selected index other than the initial
index 0 passes the gate — both coordinates of its box are at most the
label's.  The initial index 0 can be selected, and its count
overwritten, even when it fails the gate (in particular when no
candidate passes): see the counterexample. -/
theorem constrained_nearest_gate (b : Int × Int) (boxCards : List BoxText)
    (j : ℕ) (hj : iMinLoop (compSb b) boxCards = j) (hj0 : j ≠ 0) :
    (boxCards.getD j dummyBox).box.1 ≤ b.1 ∧
      (boxCards.getD j dummyBox).box.2 ≤ b.2 := by
  subst hj
  rcases iMinLoop_compSb_gate b boxCards with h | h
  · exact absurd h hj0
  · exact h

/-- Witness for C7 (amended): a gate-passing farther box beats a
gate-failing nearer initial box at index 0. -/
theorem constrained_nearest_gate_witness :
    (([⟨(20, 20), "Aaa", 1⟩, ⟨(1, 1), "Bbb", 1⟩] : List BoxText).getD 1
        dummyBox).box.1 ≤ ((10 : Int), (10 : Int)).1 ∧
    (([⟨(20, 20), "Aaa", 1⟩, ⟨(1, 1), "Bbb", 1⟩] : List BoxText).getD 1
        dummyBox).box.2 ≤ ((10 : Int), (10 : Int)).2 :=
  constrained_nearest_gate (10, 10) [⟨(20, 20), "Aaa", 1⟩, ⟨(1, 1), "Bbb", 1⟩] 1
    (by decide) (by decide)

/-- Counterexample to claim C7 as stated: with a single resolved box
strictly below-right of a digit-before-glyph label, the box fails the
directional gate, yet its count is overwritten to the label's value —
the argmin loop starts at index 0 unconditionally, so a gate-failing
box can still be the one whose count is overwritten. -/
theorem constrained_nearest_gate_counterexample :
    assignStacked [⟨(0, 0), "4x", 1⟩] [⟨(5, 5), "Aaa", 1⟩] =
      some [⟨(5, 5), "Aaa", 4⟩] ∧
    ¬ ((5 : Int) ≤ 0 ∧ (5 : Int) ≤ 0) := by
  constructor
  · decide
  · decide

/-- Claim C9: every card name emitted by the resolver is a member of
CardIndex, and every key of the output deck's maindeck and sideboard
piles is a member of CardIndex — the pipeline never synthesizes a name
outside the index. -/
theorem names_from_card_index :
    (∀ (cards : List String) (rNum rDen : ℕ) (text c : String),
      search cards rNum rDen text = some c → c ∈ cards) ∧
    (∀ (cards keywords : List String) (rNum rDen kNum kDen : ℕ)
      (bts : List BoxText) (d : Deck),
      boxTextsToStackedCards cards keywords rNum rDen kNum kDen bts = some d →
      (∀ x ∈ d.maindeck, x.1 ∈ cards) ∧ (∀ x ∈ d.sideboard, x.1 ∈ cards)) := by
  constructor
  · exact search_mem
  · intro cards keywords rNum rDen kNum kDen bts d hd
    simp only [boxTextsToStackedCards] at hd
    cases has : assignStacked (sortBoxes bts)
        (boxTextsToCards cards keywords rNum rDen kNum kDen (sortBoxes bts)) with
    | none => rw [has] at hd; cases hd
    | some bc =>
      rw [has] at hd
      dsimp only at hd
      rw [Option.some.injEq] at hd
      subst hd
      have hkey : ∀ x : String × ℕ,
          x ∈ (assemble bc).maindeck ∨ x ∈ (assemble bc).sideboard →
            x.1 ∈ cards := by
        intro x hx
        obtain ⟨bt, hbt, hbt'⟩ := List.mem_map.mp (assemble_keys bc x hx)
        obtain ⟨b0, hb0, he0⟩ := assignStacked_texts (sortBoxes bts) _ bc has bt hbt
        rw [← hbt', he0]
        exact boxTextsToCards_mem cards keywords rNum rDen kNum kDen
          (sortBoxes bts) b0 hb0
      exact ⟨fun x hx => hkey x (Or.inl hx), fun x hx => hkey x (Or.inr hx)⟩

/-- Witness for C9 at a concrete resolution and a concrete pipeline
run. -/
theorem names_from_card_index_witness :
    "Island" ∈ ["Island", "Forest"] ∧ ("Island", (1 : ℕ)).1 ∈ ["Island"] :=
  ⟨names_from_card_index.1 ["Island", "Forest"] 3 10 "Island" "Island" (by decide),
   (names_from_card_index.2 ["Island"] [] 3 10 2 10 [⟨(0, 0), "Island", 1⟩]
      ⟨[("Island", 1)], []⟩ (by decide)).1 ("Island", 1) (by decide)⟩

/-- Claim C10: when the original fragment list contains a two-character
count label (a multiplier glyph adjacent to a digit) but the resolved
card list is empty, the quantity-assignment step hits the out-of-bounds
access `box_cards[0]` and the pipeline fails (no deck is produced),
instead of absorbing the per-item failure. -/
theorem empty_resolved_label_crash (cards keywords : List String)
    (rNum rDen kNum kDen : ℕ) (bts : List BoxText) (bt : BoxText) (c0 c1 : Char)
    (hmem : bt ∈ bts) (ht : bt.text.data = [c0, c1])
    (hl : (isGlyph c0 = true ∧ c1.isDigit = true) ∨
      (isGlyph c1 = true ∧ c0.isDigit = true))
    (hempty :
      boxTextsToCards cards keywords rNum rDen kNum kDen (sortBoxes bts) = []) :
    boxTextsToStackedCards cards keywords rNum rDen kNum kDen bts = none := by
  simp only [boxTextsToStackedCards]
  rw [hempty, assignStacked_nil_label (sortBoxes bts) bt c0 c1
    ((mem_sortBoxes bts bt).mpr hmem) ht hl]

/-- Witness for C10: an "x4" label with nothing resolved crashes the
pipeline. -/
theorem empty_resolved_label_crash_witness :
    boxTextsToStackedCards [] [] 3 10 2 10 [⟨(0, 0), "x4", 1⟩] = none :=
  empty_resolved_label_crash [] [] 3 10 2 10 [⟨(0, 0), "x4", 1⟩]
    ⟨(0, 0), "x4", 1⟩ (Char.ofNat 120) (Char.ofNat 52) (by decide) (by decide)
    (Or.inl ⟨by decide, by decide⟩) (by decide)

end MTGScan
